import Mathlib

/-!
Shallow embedding of `src/gene_finder.py`: a pipeline that parses a GFF
file, parses a FASTA genome, extracts gene subsequences (reverse
complementing on the minus strand) and writes them back out as FASTA.
Strings are modelled as `List Char`; files are modelled as lists of lines
(`List (List Char)`); Python exceptions are modelled with `Option`.
-/

/-- Python whitespace characters as recognised by `str.strip()` (ASCII part). -/
def isPySpace (c : Char) : Bool :=
  c = ' ' || c = '\t' || c = '\n' || c = '\r' || c = '\x0b' || c = '\x0c'

/-- Model of Python `str.strip()`: drop whitespace from both ends. -/
def pyStrip (s : List Char) : List Char :=
  ((s.dropWhile isPySpace).reverse.dropWhile isPySpace).reverse

/-- Model of Python `str.split(sep)` for a one-character separator:
`"".split(sep) == [""]`, adjacent separators produce empty pieces. -/
def pySplit (sep : Char) : List Char → List (List Char)
  | [] => [[]]
  | c :: cs =>
    if c = sep then [] :: pySplit sep cs
    else
      match pySplit sep cs with
      | [] => [[c]]
      | r :: rs => (c :: r) :: rs

/-- Model of Python `str.startswith(p)`. -/
def pyStartswith : List Char → List Char → Bool
  | [], _ => true
  | _ :: _, [] => false
  | p :: ps, c :: cs => p == c && pyStartswith ps cs

/-- Model of Python `str.lower()` on the ASCII letters (the only case the
program exercises: comparing the GFF feature column to "gene"). -/
def pyLower (s : List Char) : List Char :=
  s.map (fun c => if 'A' ≤ c ∧ c ≤ 'Z' then Char.ofNat (c.toNat + 32) else c)

/-- Digit accumulation for Python `int()`: digits with single underscores
allowed between digits. -/
def pyDigits : List Char → Nat → Option Nat
  | [], acc => some acc
  | '_' :: c :: rest, acc =>
    if c.isDigit then pyDigits rest (acc * 10 + (c.toNat - 48)) else none
  | c :: rest, acc =>
    if c.isDigit then pyDigits rest (acc * 10 + (c.toNat - 48)) else none

/-- The unsigned part of Python `int()`: at least one leading digit. -/
def pyIntOfDigits (s : List Char) : Option Nat :=
  match s with
  | c :: rest => if c.isDigit then pyDigits rest (c.toNat - 48) else none
  | [] => none

/-- Model of Python `int(str)`: surrounding whitespace stripped, optional
sign, decimal digits; failure (a `ValueError`) is `none`. -/
def pyInt (s : List Char) : Option Int :=
  match pyStrip s with
  | '+' :: rest => (pyIntOfDigits rest).map (fun n => (n : Int))
  | '-' :: rest => (pyIntOfDigits rest).map (fun n => -(n : Int))
  | rest => (pyIntOfDigits rest).map (fun n => (n : Int))

/-- The nucleotide alphabet translated by `reverse_complement`. -/
def nucAlphabet : List Char := ['A', 'C', 'G', 'T', 'a', 'c', 'g', 't']

/-- One parsed GFF gene row, as built by `parse_gff` (the Python dict with
keys id, start, end, strand, length). -/
structure GeneRecord where
  id : List Char
  start : Int
  «end» : Int
  strand : List Char
  length : Int
deriving DecidableEq

/-- One extracted gene, as built by `extract_genes` (the Python dict with
keys id, seq, length). -/
structure ExtractedGene where
  id : List Char
  seq : List Char
  length : Int
deriving DecidableEq

/-- The id-extraction loop of `parse_gff`: scan the `;`-separated
attributes, the first one starting with `ID=` supplies `split("=")[1]`,
otherwise the id stays "unknown". The index `[1]` always exists because a
matching attribute contains the `=` of `ID=`. -/
def geneId (attributes : List Char) : List Char :=
  match (pySplit ';' attributes).find? (fun attr => pyStartswith ['I', 'D', '='] attr) with
  | some attr => (pySplit '=' attr).getD 1 []
  | none => ['u', 'n', 'k', 'n', 'o', 'w', 'n']

/-- The Python condition `min_length and length < min_length`: `None` and
`0` are falsy, so they disable the filter. -/
def skipByLength (min_length : Option Int) (length : Int) : Bool :=
  match min_length with
  | none => false
  | some m => decide (m ≠ 0) && decide (length < m)

/-- Processing of one GFF line by `parse_gff`. `none` models a raised
exception (non-integer coordinate); `some none` a skipped line; `some
(some g)` an appended record. -/
def gffLine (min_length : Option Int) (line : List Char) : Option (Option GeneRecord) :=
  if pyStartswith ['#'] line || (pyStrip line).isEmpty then some none
  else
    let parts := pySplit '\t' (pyStrip line)
    if parts.length < 9 then some none
    else if pyLower (parts.getD 2 []) ≠ ['g', 'e', 'n', 'e'] then some none
    else
      match pyInt (parts.getD 3 []), pyInt (parts.getD 4 []) with
      | some start, some e =>
        if skipByLength min_length (e - start + 1) then some none
        else some (some {
          id := geneId (parts.getD 8 []),
          start := start,
          «end» := e,
          strand := parts.getD 6 [],
          length := e - start + 1 })
      | _, _ => none

/-- Model of `parse_gff`: fold `gffLine` over the file's lines, in order;
an exception on any line aborts the whole parse. -/
def parse_gff (lines : List (List Char)) (min_length : Option Int) : Option (List GeneRecord) :=
  match lines with
  | [] => some []
  | l :: ls =>
    match gffLine min_length l, parse_gff ls min_length with
    | none, _ => none
    | _, none => none
    | some og, some gs =>
      some (match og with | none => gs | some g => g :: gs)

/-- Model of `parse_fasta`: lines starting with `>` are skipped, the rest
are stripped and concatenated in order. -/
def parse_fasta : List (List Char) → List Char
  | [] => []
  | l :: ls =>
    if pyStartswith ['>'] l then parse_fasta ls
    else pyStrip l ++ parse_fasta ls

/-- The character table `str.maketrans("ACGTacgt", "TGCAtgca")`: every
other character maps to itself. -/
def complementChar (c : Char) : Char :=
  if c = 'A' then 'T'
  else if c = 'C' then 'G'
  else if c = 'G' then 'C'
  else if c = 'T' then 'A'
  else if c = 'a' then 't'
  else if c = 'c' then 'g'
  else if c = 'g' then 'c'
  else if c = 't' then 'a'
  else c

/-- Model of `reverse_complement`: `seq.translate(table)[::-1]`. -/
def reverse_complement (seq : List Char) : List Char :=
  (seq.map complementChar).reverse

/-- Python slice-index adjustment for `s[i:j]`: negative indices count
from the end, then both are clamped into `[0, len]`. -/
def pySliceIndex (len : Nat) (i : Int) : Nat :=
  if i < 0 then
    if i + len < 0 then 0 else (i + len).toNat
  else
    min i.toNat len

/-- Model of the Python slice `s[i:j]`. -/
def pySlice (s : List Char) (i j : Int) : List Char :=
  (s.take (pySliceIndex s.length j)).drop (pySliceIndex s.length i)

/-- Model of `extract_genes`: slice `seq[start-1:end]`, reverse complement
when the strand is "-", copy id and length. -/
def extract_genes (seq : List Char) (genes : List GeneRecord) : List ExtractedGene :=
  genes.map (fun gene =>
    let gene_seq := pySlice seq (gene.start - 1) gene.«end»
    let gene_seq := if gene.strand = ['-'] then reverse_complement gene_seq else gene_seq
    { id := gene.id, seq := gene_seq, length := gene.length })

/-- Decimal digits of a natural number, most significant first, with fuel
for structural recursion (fuel `n` always suffices since `n / 10 < n`). -/
def natDigitsAux (fuel : Nat) (n : Nat) : List Char :=
  match fuel with
  | 0 => []
  | fuel + 1 =>
    if n < 10 then [Nat.digitChar n]
    else natDigitsAux fuel (n / 10) ++ [Nat.digitChar (n % 10)]

/-- Decimal representation of a natural number, as Python `str` writes it. -/
def natDigits (n : Nat) : List Char :=
  natDigitsAux (n + 1) n

/-- Model of Python `str(int)`: optional minus sign then decimal digits. -/
def intStr (n : Int) : List Char :=
  if n < 0 then '-' :: natDigits (-n).toNat else natDigits n.toNat

/-- The chunking loop of `write_fasta`: `seq[i:i+60]` for `i` in
`range(0, len(seq), 60)`, with fuel for structural recursion. -/
def pyChunksAux (fuel : Nat) (s : List Char) : List (List Char) :=
  match fuel, s with
  | 0, _ => []
  | _, [] => []
  | fuel + 1, c :: cs => ((c :: cs).take 60) :: pyChunksAux fuel ((c :: cs).drop 60)

/-- The 60-character chunks of a sequence, as written by `write_fasta`. -/
def pyChunks (s : List Char) : List (List Char) :=
  pyChunksAux s.length s

/-- Each written line followed by a newline, as `f.write(line + "\n")`. -/
def joinNl : List (List Char) → List Char
  | [] => []
  | l :: ls => l ++ '\n' :: joinNl ls

/-- The characters `write_fasta` emits for one gene: the header
`>{id} length={length}` plus newline, then the 60-wide body lines. -/
def fastaRecord (gene : ExtractedGene) : List Char :=
  ('>' :: (gene.id ++ [' ', 'l', 'e', 'n', 'g', 't', 'h', '='] ++ intStr gene.length))
    ++ '\n' :: joinNl (pyChunks gene.seq)

/-- Model of `write_fasta`: the full file content, records in input order. -/
def write_fasta : List ExtractedGene → List Char
  | [] => []
  | g :: gs => fastaRecord g ++ write_fasta gs

/-- Concatenation of a list of character lists, in order. -/
def concatAll : List (List Char) → List Char
  | [] => []
  | l :: ls => l ++ concatAll ls

/-- Outcome of one run of `main` after the input files were read: the
process exit code, the printed message, and the output file content
(`none` when `write_fasta` was never invoked). -/
structure MainOutcome where
  exitCode : Nat
  message : List Char
  output : Option (List Char)
deriving DecidableEq

/-- Model of `main` past argument parsing and the existence checks: parse
the FASTA, parse the GFF, stop with exit code 1 and no output when the
parse raises or when no gene passed the filter, otherwise extract, write
and report the count. -/
def mainRun (gffLines fastaLines : List (List Char)) (output_path : List Char)
    (min_length : Option Int) : MainOutcome :=
  let seq := parse_fasta fastaLines
  match parse_gff gffLines min_length with
  | none => ⟨1, "Error: ".toList, none⟩
  | some genes =>
    if genes.isEmpty then
      ⟨1, "No se encontraron genes que cumplan los criterios.".toList, none⟩
    else
      let extracted := extract_genes seq genes
      ⟨0, "Se extrajeron ".toList ++ intStr extracted.length
            ++ " genes en ".toList ++ output_path,
        some (write_fasta extracted)⟩

/-- Modelled from the spec (amended wording for claim C1): the id is the
text after the first `=` of the matching attribute, up to but excluding
the next `=`; "unknown" when no attribute starts with `ID=`. -/
def idSpecAmended (attributes : List Char) : List Char :=
  match (pySplit ';' attributes).find? (fun attr => pyStartswith ['I', 'D', '='] attr) with
  | some attr => (attr.drop 3).takeWhile (fun c => c != '=')
  | none => ['u', 'n', 'k', 'n', 'o', 'w', 'n']

/-- Proof helper: `gffLine` without the length filter, used to factor the
`min_length`-dependence of `gffLine` into a final filtering step. -/
def gffLineCore (line : List Char) : Option (Option GeneRecord) :=
  if pyStartswith ['#'] line || (pyStrip line).isEmpty then some none
  else
    let parts := pySplit '\t' (pyStrip line)
    if parts.length < 9 then some none
    else if pyLower (parts.getD 2 []) ≠ ['g', 'e', 'n', 'e'] then some none
    else
      match pyInt (parts.getD 3 []), pyInt (parts.getD 4 []) with
      | some start, some e =>
        some (some {
          id := geneId (parts.getD 8 []),
          start := start,
          «end» := e,
          strand := parts.getD 6 [],
          length := e - start + 1 })
      | _, _ => none

/-! ### Basic lemmas about the string-operation models -/

lemma pySplit_ne_nil (sep : Char) (s : List Char) : pySplit sep s ≠ [] := by
  cases s with
  | nil => simp [pySplit]
  | cons c cs =>
    simp only [pySplit]
    split
    · simp
    · split <;> simp

lemma pySplit_headD (sep : Char) (s : List Char) :
    (pySplit sep s).getD 0 [] = s.takeWhile (fun c => c != sep) := by
  induction s with
  | nil => simp [pySplit]
  | cons c cs ih =>
    simp only [pySplit, List.takeWhile]
    by_cases h : c = sep
    · simp [h]
    · rw [if_neg h]
      cases hps : pySplit sep cs with
      | nil => exact absurd hps (pySplit_ne_nil sep cs)
      | cons r rs =>
        rw [hps] at ih
        simp only [List.getD_cons_zero] at ih ⊢
        have hb : (c != sep) = true := by simp [h]
        simp [hb, ih]

lemma pyStartswith_iff (p s : List Char) :
    pyStartswith p s = true ↔ ∃ t, s = p ++ t := by
  induction p generalizing s with
  | nil => simp [pyStartswith]
  | cons a ps ih =>
    cases s with
    | nil => simp [pyStartswith]
    | cons c cs =>
      simp only [pyStartswith, Bool.and_eq_true, beq_iff_eq, ih, List.cons_append,
        List.cons.injEq]
      constructor
      · rintro ⟨rfl, t, rfl⟩
        exact ⟨t, rfl, rfl⟩
      · rintro ⟨t, rfl, rfl⟩
        exact ⟨rfl, t, rfl⟩

lemma pySplit_append (sep : Char) (xs v : List Char) (h : sep ∉ xs) :
    pySplit sep (xs ++ sep :: v) = xs :: pySplit sep v := by
  induction xs with
  | nil => simp [pySplit]
  | cons c cs ih =>
    have hc : ¬(c = sep) := by rintro rfl; exact h (List.mem_cons_self _ _)
    have hcs : sep ∉ cs := fun hm => h (List.mem_cons_of_mem _ hm)
    simp only [List.cons_append, pySplit, if_neg hc]
    rw [show cs.append (sep :: v) = cs ++ sep :: v from rfl, ih hcs]

lemma dropWhile_eq_self_of_all {p : Char → Bool} {s : List Char}
    (h : ∀ c ∈ s, p c = false) : s.dropWhile p = s := by
  cases s with
  | nil => rfl
  | cons c cs => simp [List.dropWhile_cons, h c (List.mem_cons_self c cs)]

lemma pyStrip_eq_self {s : List Char} (h : ∀ c ∈ s, isPySpace c = false) :
    pyStrip s = s := by
  unfold pyStrip
  rw [dropWhile_eq_self_of_all h,
    dropWhile_eq_self_of_all (fun c hc => h c (List.mem_reverse.mp hc)),
    List.reverse_reverse]

lemma digitChar_isDigit (m : Nat) (h : m < 10) : (Nat.digitChar m).isDigit = true := by
  interval_cases m <;> decide

lemma natDigitsAux_digits (fuel : Nat) :
    ∀ (n : Nat), ∀ c ∈ natDigitsAux fuel n, c.isDigit = true := by
  induction fuel with
  | zero => intro n c hc; simp [natDigitsAux] at hc
  | succ fuel ih =>
    intro n c hc
    simp only [natDigitsAux] at hc
    split at hc
    · simp only [List.mem_singleton] at hc
      subst hc
      exact digitChar_isDigit n (by assumption)
    · rcases List.mem_append.mp hc with h1 | h1
      · exact ih (n / 10) c h1
      · simp only [List.mem_singleton] at h1
        subst h1
        exact digitChar_isDigit (n % 10) (Nat.mod_lt _ (by norm_num))

lemma intStr_not_newline (n : Int) : '\n' ∉ intStr n := by
  intro h
  unfold intStr at h
  split at h
  · rcases List.mem_cons.mp h with h1 | h1
    · exact absurd h1 (by decide)
    · exact absurd (natDigitsAux_digits _ _ _ h1) (by decide)
  · exact absurd (natDigitsAux_digits _ _ _ h) (by decide)

/-! ### Lemmas about the 60-character chunking of `write_fasta` -/

lemma pyChunksAux_nil (fuel : Nat) : pyChunksAux fuel [] = [] := by
  cases fuel <;> rfl

lemma pyChunksAux_length (fuel : Nat) :
    ∀ (s : List Char), s.length ≤ fuel →
      (pyChunksAux fuel s).length = (s.length + 59) / 60 := by
  induction fuel with
  | zero =>
    intro s h
    have : s = [] := List.length_eq_zero.mp (Nat.le_zero.mp h)
    subst this
    rfl
  | succ fuel ih =>
    intro s h
    cases s with
    | nil => rfl
    | cons c cs =>
      simp only [pyChunksAux, List.length_cons]
      rw [ih _ (by simp only [List.length_drop, List.length_cons]; simp only [List.length_cons] at h; omega)]
      simp only [List.length_drop, List.length_cons]
      omega

lemma pyChunksAux_dropLast (fuel : Nat) :
    ∀ (s : List Char), s.length ≤ fuel →
      ∀ l ∈ (pyChunksAux fuel s).dropLast, l.length = 60 := by
  induction fuel with
  | zero =>
    intro s h l hl
    have : s = [] := List.length_eq_zero.mp (Nat.le_zero.mp h)
    subst this
    simp [pyChunksAux] at hl
  | succ fuel ih =>
    intro s h l hl
    cases s with
    | nil => simp [pyChunksAux] at hl
    | cons c cs =>
      simp only [pyChunksAux] at hl
      cases hrest : pyChunksAux fuel ((c :: cs).drop 60) with
      | nil => rw [hrest] at hl; simp at hl
      | cons r rs =>
        rw [hrest, List.dropLast_cons₂] at hl
        rcases List.mem_cons.mp hl with h1 | h1
        · subst h1
          have hne : (c :: cs).drop 60 ≠ [] := by
            intro hd
            rw [hd, pyChunksAux_nil] at hrest
            exact absurd hrest (by simp)
          have hlen : 60 < (c :: cs).length := by
            by_contra hcon
            exact hne (List.drop_eq_nil_of_le (by omega))
          simp only [List.length_take]
          omega
        · have := ih ((c :: cs).drop 60)
            (by simp only [List.length_drop, List.length_cons]; simp only [List.length_cons] at h; omega)
          rw [hrest] at this
          exact this l h1

lemma pyChunksAux_concat (fuel : Nat) :
    ∀ (s : List Char), s.length ≤ fuel →
      concatAll (pyChunksAux fuel s) = s := by
  induction fuel with
  | zero =>
    intro s h
    have : s = [] := List.length_eq_zero.mp (Nat.le_zero.mp h)
    subst this
    rfl
  | succ fuel ih =>
    intro s h
    cases s with
    | nil => rfl
    | cons c cs =>
      simp only [pyChunksAux, concatAll]
      rw [ih _ (by simp only [List.length_drop, List.length_cons]; simp only [List.length_cons] at h; omega)]
      exact List.take_append_drop 60 (c :: cs)

lemma pyChunksAux_mem_subset (fuel : Nat) :
    ∀ (s l : List Char), l ∈ pyChunksAux fuel s → ∀ c ∈ l, c ∈ s := by
  induction fuel with
  | zero => intro s l hl; simp [pyChunksAux] at hl
  | succ fuel ih =>
    intro s l hl
    cases s with
    | nil => simp [pyChunksAux] at hl
    | cons a as =>
      simp only [pyChunksAux] at hl
      rcases List.mem_cons.mp hl with h1 | h1
      · subst h1
        exact fun c hc => List.take_subset 60 (a :: as) hc
      · exact fun c hc => List.drop_subset 60 (a :: as) (ih _ l h1 c hc)

/-! ### Lemmas about the complement table -/

lemma complementChar_eq_self (c : Char) (h1 : c ≠ 'A') (h2 : c ≠ 'C') (h3 : c ≠ 'G')
    (h4 : c ≠ 'T') (h5 : c ≠ 'a') (h6 : c ≠ 'c') (h7 : c ≠ 'g') (h8 : c ≠ 't') :
    complementChar c = c := by
  simp [complementChar, h1, h2, h3, h4, h5, h6, h7, h8]

lemma complementChar_invol (c : Char) : complementChar (complementChar c) = c := by
  rcases eq_or_ne c 'A' with rfl | h1; · decide
  rcases eq_or_ne c 'C' with rfl | h2; · decide
  rcases eq_or_ne c 'G' with rfl | h3; · decide
  rcases eq_or_ne c 'T' with rfl | h4; · decide
  rcases eq_or_ne c 'a' with rfl | h5; · decide
  rcases eq_or_ne c 'c' with rfl | h6; · decide
  rcases eq_or_ne c 'g' with rfl | h7; · decide
  rcases eq_or_ne c 't' with rfl | h8; · decide
  rw [complementChar_eq_self c h1 h2 h3 h4 h5 h6 h7 h8,
    complementChar_eq_self c h1 h2 h3 h4 h5 h6 h7 h8]

/-! ### Lemmas about `gffLine` and `parse_gff` -/

lemma gffLine_eq (m : Option Int) (line : List Char) :
    gffLine m line =
      match gffLineCore line with
      | some (some g) =>
        if skipByLength m g.length then some none else some (some g)
      | x => x := by
  simp only [gffLine, gffLineCore]
  split
  · rfl
  · split
    · rfl
    · split
      · rfl
      · split
        · rfl
        · rfl

lemma gffLine_none_iff (m m' : Option Int) (line : List Char) :
    gffLine m line = none ↔ gffLine m' line = none := by
  rw [gffLine_eq m, gffLine_eq m']
  cases hc : gffLineCore line with
  | none => simp
  | some og =>
    cases og with
    | none => simp
    | some g =>
      simp only
      constructor <;> intro h <;> (split at h <;> simp_all)

lemma skipByLength_mono {m1 m2 L : Int} (h0 : 0 ≤ m1) (h12 : m1 ≤ m2)
    (h : skipByLength (some m2) L = false) : skipByLength (some m1) L = false := by
  simp only [skipByLength, Bool.and_eq_false_iff, decide_eq_false_iff_not,
    Decidable.not_not] at h ⊢
  omega

lemma gffLine_mono {m1 m2 : Int} (line : List Char) (g : GeneRecord)
    (h0 : 0 ≤ m1) (h12 : m1 ≤ m2)
    (h : gffLine (some m2) line = some (some g)) :
    gffLine (some m1) line = some (some g) := by
  rw [gffLine_eq] at h ⊢
  cases hc : gffLineCore line with
  | none => rw [hc] at h; exact absurd h (by simp)
  | some og =>
    cases og with
    | none => rw [hc] at h; exact absurd h (by simp)
    | some g' =>
      rw [hc] at h
      simp only at h ⊢
      split at h
      · exact absurd h (by simp)
      · have hg : g' = g := by simpa using h
        subst hg
        rw [if_neg]
        simp only [Bool.not_eq_true]
        exact skipByLength_mono h0 h12 (by simpa using ‹¬skipByLength (some m2) g'.length = true›)

lemma gffLine_core_of_some {m : Option Int} {line : List Char} {g : GeneRecord}
    (h : gffLine m line = some (some g)) : gffLineCore line = some (some g) := by
  rw [gffLine_eq] at h
  cases hc : gffLineCore line with
  | none => rw [hc] at h; exact absurd h (by simp)
  | some og =>
    cases og with
    | none => rw [hc] at h; exact absurd h (by simp)
    | some g' =>
      rw [hc] at h
      simp only at h
      split at h
      · exact absurd h (by simp)
      · simpa using h

lemma gffLineCore_id {line : List Char} {g : GeneRecord}
    (h : gffLineCore line = some (some g)) :
    g.id = geneId ((pySplit '\t' (pyStrip line)).getD 8 []) := by
  simp only [gffLineCore] at h
  split at h
  · simp at h
  · split at h
    · simp at h
    · split at h
      · simp at h
      · split at h
        · have := (Option.some.injEq _ _).mp h
          have := (Option.some.injEq _ _).mp this
          rw [← this]
        · simp at h

lemma geneId_eq_idSpecAmended (attributes : List Char) :
    geneId attributes = idSpecAmended attributes := by
  unfold geneId idSpecAmended
  cases hf : (pySplit ';' attributes).find? (fun attr => pyStartswith ['I', 'D', '='] attr) with
  | none => rfl
  | some attr =>
    have hpre : pyStartswith ['I', 'D', '='] attr = true := List.find?_some hf
    obtain ⟨t, rfl⟩ := (pyStartswith_iff _ _).mp hpre
    simp only [List.cons_append, List.nil_append]
    rw [show ('I' :: 'D' :: '=' :: t) = ['I', 'D'] ++ '=' :: t from rfl,
      pySplit_append '=' ['I', 'D'] t (by decide)]
    simp only [List.getD_cons_succ, List.getD_cons_zero, List.drop_succ_cons, List.drop_nil,
      List.drop_zero]
    exact pySplit_headD '=' t

/-! ### Claim theorems -/

/-- Claim C10 (implicit): for every input string, `reverse_complement`
preserves the length, whether or not the characters are nucleotides. -/
theorem claim_C10 (s : List Char) : (reverse_complement s).length = s.length := by
  simp [reverse_complement]

/-- Claim C3: every `ExtractedGene` produced by `extract_genes` carries a
length equal to the source `GeneRecord`'s length, copied verbatim; this
holds for every genome and every record, including records whose
coordinates fall outside the genome, so the value is never recomputed
from the actually extracted substring. -/
theorem claim_C3 (seq : List Char) (genes : List GeneRecord) :
    (extract_genes seq genes).map (fun e => e.length) = genes.map (fun g => g.length) := by
  simp [extract_genes]

/-- Claim C5: the complement table swaps A with T and C with G preserving
case, fixes every character outside the nucleotide alphabet, the whole
transformation reverses the string (so `reverse_complement "ATGC" =
"GCAT"`), and `extract_genes` applies it exactly when the strand is "-". -/
theorem claim_C5 :
    (complementChar 'A' = 'T' ∧ complementChar 'T' = 'A' ∧
      complementChar 'C' = 'G' ∧ complementChar 'G' = 'C') ∧
    (complementChar 'a' = 't' ∧ complementChar 't' = 'a' ∧
      complementChar 'c' = 'g' ∧ complementChar 'g' = 'c') ∧
    (∀ c : Char, c ∉ nucAlphabet → complementChar c = c) ∧
    (∀ s : List Char, reverse_complement s = (s.map complementChar).reverse) ∧
    reverse_complement "ATGC".toList = "GCAT".toList ∧
    (∀ (seq : List Char) (g : GeneRecord),
      extract_genes seq [g] =
        [⟨g.id,
          if g.strand = ['-'] then reverse_complement (pySlice seq (g.start - 1) g.«end»)
          else pySlice seq (g.start - 1) g.«end»,
          g.length⟩]) := by
  refine ⟨by decide, by decide, ?_, fun s => rfl, by decide, fun seq g => ?_⟩
  · intro c hc
    simp only [nucAlphabet, List.mem_cons, List.not_mem_nil, or_false, not_or] at hc
    obtain ⟨h1, h2, h3, h4, h5, h6, h7, h8⟩ := hc
    exact complementChar_eq_self c h1 h2 h3 h4 h5 h6 h7 h8
  · simp [extract_genes]

/-- Claim C5 witness: the theorem applied at the concrete character 'N',
which is outside the nucleotide alphabet and is left unchanged. -/
theorem claim_C5_witness : complementChar 'N' = 'N' :=
  claim_C5.2.2.1 'N' (by decide)

/-- Claim C6: the reverse complement is an involution on strings over the
nucleotide alphabet. -/
theorem claim_C6 (s : List Char) (h : ∀ c ∈ s, c ∈ nucAlphabet) :
    reverse_complement (reverse_complement s) = s := by
  simp only [reverse_complement, List.map_reverse, List.reverse_reverse, List.map_map]
  exact (List.map_congr_left (fun c _ => complementChar_invol c)).trans (List.map_id s)

/-- Claim C6 witness: the round trip evaluated at the concrete sequence
"ACGTacgt". -/
theorem claim_C6_witness :
    reverse_complement (reverse_complement "ACGTacgt".toList) = "ACGTacgt".toList :=
  claim_C6 _ (by decide)

/-- Claim C4: for one extracted gene, `write_fasta` emits the header line
followed by exactly `ceil(L / 60)` body lines (none when the sequence is
empty), and every body line except possibly the last has exactly 60
characters. -/
theorem claim_C4 (gene : ExtractedGene) :
    write_fasta [gene] =
      ('>' :: (gene.id ++ [' ', 'l', 'e', 'n', 'g', 't', 'h', '='] ++ intStr gene.length))
        ++ '\n' :: joinNl (pyChunks gene.seq)
    ∧ (pyChunks gene.seq).length = (gene.seq.length + 59) / 60
    ∧ ∀ l ∈ (pyChunks gene.seq).dropLast, l.length = 60 := by
  refine ⟨?_, ?_, ?_⟩
  · simp [write_fasta, fastaRecord]
  · exact pyChunksAux_length _ _ (le_refl _)
  · exact pyChunksAux_dropLast _ _ (le_refl _)

/-- Claim C4 witness: for a 70-character sequence the body is wrapped into
a 60-character line (the one counted by `dropLast`) plus a shorter final
line. -/
theorem claim_C4_witness : ((List.replicate 70 'A').take 60).length = 60 :=
  (claim_C4 ⟨['g'], List.replicate 70 'A', 70⟩).2.2 ((List.replicate 70 'A').take 60)
    (by decide)

/-- Claim C7: whenever zero gene records pass the annotation filter, the
entry point exits with a non-zero code, prints the dedicated
no-genes-found message, and never writes the output file. -/
theorem claim_C7 (gffLines fastaLines : List (List Char)) (output_path : List Char)
    (m : Option Int) (h : parse_gff gffLines m = some []) :
    (mainRun gffLines fastaLines output_path m).exitCode ≠ 0 ∧
    (mainRun gffLines fastaLines output_path m).message =
      "No se encontraron genes que cumplan los criterios.".toList ∧
    (mainRun gffLines fastaLines output_path m).output = none := by
  simp [mainRun, h]

/-- Claim C7 witness: the theorem applied to an empty annotation file,
whose parse yields the empty record list. -/
theorem claim_C7_witness :
    (mainRun [] [] [] none).exitCode ≠ 0 ∧
    (mainRun [] [] [] none).message =
      "No se encontraron genes que cumplan los criterios.".toList ∧
    (mainRun [] [] [] none).output = none :=
  claim_C7 [] [] [] none rfl

lemma parse_gff_mem {lines : List (List Char)} {m : Option Int} {gs : List GeneRecord}
    (h : parse_gff lines m = some gs) :
    ∀ g ∈ gs, ∃ line ∈ lines, gffLine m line = some (some g) := by
  induction lines generalizing gs with
  | nil =>
    simp only [parse_gff, Option.some.injEq] at h
    subst h
    intro g hg
    simp at hg
  | cons l ls ih =>
    simp only [parse_gff] at h
    cases hl : gffLine m l with
    | none => rw [hl] at h; simp at h
    | some og =>
      rw [hl] at h
      cases hr : parse_gff ls m with
      | none => rw [hr] at h; simp at h
      | some gs' =>
        rw [hr] at h
        simp only [Option.some.injEq] at h
        subst h
        intro g hg
        cases og with
        | none =>
          obtain ⟨line, hm, hline⟩ := ih hr g hg
          exact ⟨line, List.mem_cons_of_mem _ hm, hline⟩
        | some g0 =>
          rcases List.mem_cons.mp hg with rfl | hg'
          · exact ⟨l, List.mem_cons_self _ _, hl⟩
          · obtain ⟨line, hm, hline⟩ := ih hr g hg'
            exact ⟨line, List.mem_cons_of_mem _ hm, hline⟩

/-- Claim C1 counterexample: for the attribute `ID=a=b` the id produced by
`parse_gff` is "a" (the code takes `attr.split("=")[1]`, the text between
the first and second `=`), not "a=b" (the text after the first `=`) as the
claim states. -/
theorem claim_C1_counterexample :
    parse_gff ["s\tx\tgene\t1\t5\t.\t+\t.\tID=a=b".toList] none
        = some [⟨['a'], 1, 5, ['+'], 5⟩]
    ∧ (['a'] : List Char) ≠ "a=b".toList := by decide

/-- Claim C1 (amended): every record produced by `parse_gff` comes from a
qualifying line, and its id is the text after the first `=` of the first
`;`-separated attribute starting with `ID=`, up to but excluding the next
`=` (so for `ID=a=b` the id is "a"); when no attribute starts with `ID=`
the id is the literal string "unknown". `idSpecAmended` is the amended
spec wording; the default is its `none` branch. -/
theorem claim_C1_amended {lines : List (List Char)} {m : Option Int} {gs : List GeneRecord}
    (h : parse_gff lines m = some gs) :
    ∀ g ∈ gs, ∃ line ∈ lines,
      gffLine m line = some (some g) ∧
      g.id = idSpecAmended ((pySplit '\t' (pyStrip line)).getD 8 []) := by
  intro g hg
  obtain ⟨line, hm, hline⟩ := parse_gff_mem h g hg
  refine ⟨line, hm, hline, ?_⟩
  rw [gffLineCore_id (gffLine_core_of_some hline), geneId_eq_idSpecAmended]

/-- Claim C1 witness: the amended theorem applied to one concrete
qualifying line carrying the attribute `ID=a=b`. -/
theorem claim_C1_witness :
    ∃ line ∈ ["s\tx\tgene\t1\t5\t.\t+\t.\tID=a=b".toList],
      gffLine none line = some (some ⟨['a'], 1, 5, ['+'], 5⟩) ∧
      (⟨['a'], 1, 5, ['+'], 5⟩ : GeneRecord).id
        = idSpecAmended ((pySplit '\t' (pyStrip line)).getD 8 []) :=
  @claim_C1_amended ["s\tx\tgene\t1\t5\t.\t+\t.\tID=a=b".toList] none
    [⟨['a'], 1, 5, ['+'], 5⟩] (by decide) ⟨['a'], 1, 5, ['+'], 5⟩ (by decide)

/-- Claim C2 counterexample: with the thresholds m1 = -5 and m2 = 0
(m1 <= m2) and one gene row whose end precedes its start (length -8), the
m2 = 0 run keeps the record (0 is falsy, so the filter is disabled) while
the m1 = -5 run drops it, so the m2 result is not a subset of the m1
result. -/
theorem claim_C2_counterexample :
    (-5 : Int) ≤ 0
    ∧ parse_gff ["s\tx\tgene\t10\t1\t.\t+\t.\tID=g".toList] (some 0)
        = some [⟨['g'], 10, 1, ['+'], -8⟩]
    ∧ parse_gff ["s\tx\tgene\t10\t1\t.\t+\t.\tID=g".toList] (some (-5)) = some []
    ∧ (⟨['g'], 10, 1, ['+'], -8⟩ : GeneRecord) ∉ ([] : List GeneRecord) := by decide

/-- Claim C2 (amended): for non-negative thresholds 0 <= m1 <= m2, every
record in the result of `parse_gff` at m2 also appears in its result at
m1 (and the m1 parse succeeds whenever the m2 parse does). -/
theorem claim_C2_amended (lines : List (List Char)) (m1 m2 : Int)
    (h0 : 0 ≤ m1) (h12 : m1 ≤ m2) (gs2 : List GeneRecord)
    (h : parse_gff lines (some m2) = some gs2) :
    ∃ gs1, parse_gff lines (some m1) = some gs1 ∧ ∀ g ∈ gs2, g ∈ gs1 := by
  induction lines generalizing gs2 with
  | nil =>
    refine ⟨[], rfl, ?_⟩
    simp only [parse_gff, Option.some.injEq] at h
    subst h
    simp
  | cons l ls ih =>
    simp only [parse_gff] at h
    cases hl : gffLine (some m2) l with
    | none => rw [hl] at h; simp at h
    | some og =>
      rw [hl] at h
      cases hr : parse_gff ls (some m2) with
      | none => rw [hr] at h; simp at h
      | some gs2' =>
        rw [hr] at h
        simp only [Option.some.injEq] at h
        subst h
        obtain ⟨gs1', hp1, hsub⟩ := ih gs2' hr
        cases og with
        | none =>
          cases hl1 : gffLine (some m1) l with
          | none =>
            have : gffLine (some m2) l = none := (gffLine_none_iff (some m1) (some m2) l).mp hl1
            rw [hl] at this
            exact absurd this (by simp)
          | some og1 =>
            cases og1 with
            | none =>
              refine ⟨gs1', ?_, fun g hg => hsub g hg⟩
              simp only [parse_gff, hl1, hp1]
            | some g1 =>
              refine ⟨g1 :: gs1', ?_, fun g hg => List.mem_cons_of_mem _ (hsub g hg)⟩
              simp only [parse_gff, hl1, hp1]
        | some g =>
          have hl1 : gffLine (some m1) l = some (some g) := gffLine_mono l g h0 h12 hl
          refine ⟨g :: gs1', ?_, ?_⟩
          · simp only [parse_gff, hl1, hp1]
          · intro x hx
            rcases List.mem_cons.mp hx with rfl | hx'
            · exact List.mem_cons_self _ _
            · exact List.mem_cons_of_mem _ (hsub x hx')

/-- Claim C2 witness: the amended theorem applied to one concrete gene row
of length 5 with thresholds m1 = 2 and m2 = 4. -/
theorem claim_C2_witness :
    ∃ gs1, parse_gff ["s\tx\tgene\t1\t5\t.\t+\t.\tID=g".toList] (some 2) = some gs1
      ∧ ∀ g ∈ [(⟨['g'], 1, 5, ['+'], 5⟩ : GeneRecord)], g ∈ gs1 :=
  claim_C2_amended _ 2 4 (by decide) (by decide) _ (by decide)

lemma drop_length_sub_one : ∀ (s : List Char) (h : s ≠ []),
    s.drop (s.length - 1) = [s.getLast h]
  | [], h => absurd rfl h
  | [a], _ => rfl
  | a :: b :: u, _ => by
    have hbu : b :: u ≠ [] := by simp
    have h1 : (a :: b :: u).length - 1 = u.length + 1 := by simp
    rw [h1, List.drop_succ_cons]
    have h2 : u.length = (b :: u).length - 1 := by simp
    rw [h2, drop_length_sub_one (b :: u) hbu]
    simp [List.getLast_cons]

lemma pySliceIndex_neg_one {len : Nat} (h : 1 ≤ len) :
    pySliceIndex len (0 - 1) = len - 1 := by
  unfold pySliceIndex
  rw [if_pos (by norm_num), if_neg (by omega)]
  omega

lemma pySliceIndex_le {len : Nat} {e : Int} (h : e < (len : Int)) :
    pySliceIndex len e ≤ len - 1 := by
  unfold pySliceIndex
  split
  · split
    · omega
    · omega
  · simp only [Nat.min_def]
    split <;> omega

/-- Claim C8 counterexample: for the empty genome and a gene record with
start = 0 and end = 0 (end >= len(seq) = 0), the extracted string is
empty (length 0), not the single final character of the sequence (which
would have length 1) as the claim's case split states. -/
theorem claim_C8_counterexample :
    (([] : List Char).length : Int) ≤ 0
    ∧ (extract_genes [] [⟨['g'], 0, 0, ['+'], 1⟩]).map (fun e => e.seq.length) = [0]
    ∧ (0 : Nat) ≠ 1 := by decide

/-- Claim C8 (amended): for a gene record with start = 0, `extract_genes`
slices `seq[-1:end]` under Python negative-index semantics: the slice is
empty when end < len(seq) and also when seq is empty, and it is the
single final character of seq when end >= len(seq) and seq is nonempty;
start = 0 is not treated as the beginning of the sequence and no error is
raised (the slice is total). -/
theorem claim_C8_amended (seq : List Char) (e : Int) :
    (e < (seq.length : Int) → pySlice seq (0 - 1) e = [])
    ∧ (seq = [] → pySlice seq (0 - 1) e = [])
    ∧ ((seq.length : Int) ≤ e → (h2 : seq ≠ []) → pySlice seq (0 - 1) e = [seq.getLast h2])
    ∧ (∀ g : GeneRecord, g.start = 0 →
        extract_genes seq [g] =
          [⟨g.id,
            if g.strand = ['-'] then reverse_complement (pySlice seq (0 - 1) g.«end»)
            else pySlice seq (0 - 1) g.«end»,
            g.length⟩]) := by
  refine ⟨?_, ?_, ?_, ?_⟩
  · intro he
    rcases eq_or_ne seq [] with rfl | hne
    · simp [pySlice]
    · have hlen : 1 ≤ seq.length := List.length_pos.mpr hne
      unfold pySlice
      rw [pySliceIndex_neg_one hlen]
      apply List.drop_eq_nil_of_le
      rw [List.length_take]
      exact le_trans (Nat.min_le_left _ _) (pySliceIndex_le he)
  · rintro rfl
    simp [pySlice]
  · intro h1 h2
    have hlen : 1 ≤ seq.length := List.length_pos.mpr h2
    unfold pySlice
    rw [pySliceIndex_neg_one hlen]
    have hidxe : pySliceIndex seq.length e = seq.length := by
      unfold pySliceIndex
      rw [if_neg (by omega)]
      exact Nat.min_eq_right (by omega)
    rw [hidxe, List.take_length]
    exact drop_length_sub_one seq h2
  · intro g h0
    simp [extract_genes, h0]

/-- Claim C8 witness: the amended theorem's nonempty-sequence case applied
at the sequence "ABC" with end = 5 >= 3, where the slice is the final
character "C". -/
theorem claim_C8_witness : pySlice ['A', 'B', 'C'] (0 - 1) 5 = ['C'] := by
  have h := (claim_C8_amended ['A', 'B', 'C'] 5).2.2.1 (by decide) (by decide)
  exact h.trans (by decide)

lemma nuc_not_space : ∀ c ∈ nucAlphabet, isPySpace c = false := by decide

lemma pyChunks_concat (s : List Char) : concatAll (pyChunks s) = s :=
  pyChunksAux_concat _ _ (le_refl _)

lemma pyChunks_mem_subset {s l : List Char} (hl : l ∈ pyChunks s) : ∀ c ∈ l, c ∈ s :=
  pyChunksAux_mem_subset _ _ _ hl

lemma fastaHeader_not_newline (g : ExtractedGene) (hid : '\n' ∉ g.id) :
    '\n' ∉ '>' :: (g.id ++ [' ', 'l', 'e', 'n', 'g', 't', 'h', '='] ++ intStr g.length) := by
  intro hmem
  rcases List.mem_cons.mp hmem with h1 | h1
  · exact absurd h1 (by decide)
  · rcases List.mem_append.mp h1 with h2 | h2
    · rcases List.mem_append.mp h2 with h3 | h3
      · exact hid h3
      · exact absurd h3 (by decide)
    · exact intStr_not_newline _ h2

lemma parse_fasta_joinNl (ls : List (List Char)) (rest : List Char)
    (h : ∀ l ∈ ls, ∀ c ∈ l, c ∈ nucAlphabet) :
    parse_fasta (pySplit '\n' (joinNl ls ++ rest)) =
      concatAll ls ++ parse_fasta (pySplit '\n' rest) := by
  induction ls with
  | nil => simp [joinNl, concatAll]
  | cons l ls ih =>
    have hl := h l (List.mem_cons_self _ _)
    have hnl : '\n' ∉ l := fun hm => absurd (hl '\n' hm) (by decide)
    have hassoc : joinNl (l :: ls) ++ rest = l ++ '\n' :: (joinNl ls ++ rest) := by
      simp [joinNl]
    rw [hassoc, pySplit_append '\n' l _ hnl]
    have hgt : pyStartswith ['>'] l = false := by
      cases l with
      | nil => rfl
      | cons c cs =>
        have hc := hl c (List.mem_cons_self _ _)
        have hcne : ('>' : Char) ≠ c := by
          intro he
          rw [← he] at hc
          exact absurd hc (by decide)
        simp [pyStartswith, hcne]
    simp only [parse_fasta, hgt, Bool.false_eq_true, if_false]
    rw [pyStrip_eq_self (fun c hc => nuc_not_space c (hl c hc))]
    rw [ih (fun l' hm => h l' (List.mem_cons_of_mem _ hm))]
    simp [concatAll, List.append_assoc]

/-- Claim C9 counterexample: an extracted gene whose sequence is empty
(so trivially over the nucleotide alphabet) but whose id contains a
newline; the header `write_fasta` emits then spans two lines, the second
of which does not start with `>`, so `parse_fasta` returns its text
instead of the empty concatenation of the sequences. -/
theorem claim_C9_counterexample :
    parse_fasta (pySplit '\n' (write_fasta [⟨['x', '\n', 'y'], [], 0⟩]))
      ≠ concatAll ([(⟨['x', '\n', 'y'], [], 0⟩ : ExtractedGene)].map (fun g => g.seq)) := by
  decide

/-- Claim C9 (amended): for every list of extracted genes whose sequences
consist only of nucleotide-alphabet characters and whose ids contain no
newline, parsing the file produced by `write_fasta` with `parse_fasta`
yields exactly the concatenation of the genes' sequences in input order. -/
theorem claim_C9_amended (genes : List ExtractedGene)
    (h : ∀ g ∈ genes, '\n' ∉ g.id ∧ ∀ c ∈ g.seq, c ∈ nucAlphabet) :
    parse_fasta (pySplit '\n' (write_fasta genes)) =
      concatAll (genes.map (fun g => g.seq)) := by
  induction genes with
  | nil => rfl
  | cons g gs ih =>
    have hg := h g (List.mem_cons_self _ _)
    simp only [write_fasta, fastaRecord]
    have hassoc :
        (('>' :: (g.id ++ [' ', 'l', 'e', 'n', 'g', 't', 'h', '='] ++ intStr g.length))
            ++ '\n' :: joinNl (pyChunks g.seq)) ++ write_fasta gs
          = ('>' :: (g.id ++ [' ', 'l', 'e', 'n', 'g', 't', 'h', '='] ++ intStr g.length))
            ++ '\n' :: (joinNl (pyChunks g.seq) ++ write_fasta gs) := by
      simp
    rw [hassoc, pySplit_append '\n' _ _ (fastaHeader_not_newline g hg.1)]
    have hs : pyStartswith ['>']
        ('>' :: (g.id ++ [' ', 'l', 'e', 'n', 'g', 't', 'h', '='] ++ intStr g.length)) = true := by
      simp [pyStartswith]
    simp only [parse_fasta, hs, if_true]
    rw [parse_fasta_joinNl (pyChunks g.seq) (write_fasta gs)
      (fun l hm c hc => hg.2 c (pyChunks_mem_subset hm c hc))]
    rw [pyChunks_concat]
    rw [ih (fun g' hm => h g' (List.mem_cons_of_mem _ hm))]
    simp [concatAll]

/-- Claim C9 witness: the amended round trip evaluated at one concrete
gene with sequence "ACGT". -/
theorem claim_C9_witness :
    parse_fasta (pySplit '\n' (write_fasta [⟨['g', '1'], "ACGT".toList, 4⟩]))
      = concatAll ([(⟨['g', '1'], "ACGT".toList, 4⟩ : ExtractedGene)].map (fun g => g.seq)) :=
  claim_C9_amended _ (by decide)
